import Mathlib

/-!
Shallow embedding of the environment identity & lifecycle resolver of
`wine-iso-run` (src/src/main.rs).

Paths are modelled as absolute paths: a `List String` of components, the
empty list being the filesystem root `/`.  The textual rendering used by
Rust's `to_string_lossy` is `pathText`.  The filesystem, where only
existence checks matter, is a list of existing paths.
-/

/-- Test whether `hay` starts with `needle` (character lists). -/
def charsStart : List Char → List Char → Bool
  | _, [] => true
  | [], _ :: _ => false
  | a :: as, b :: bs => a == b && charsStart as bs

/-- Test whether `needle` occurs contiguously inside `hay`: the embedding
of Rust's `str::contains` on the rendered path text. -/
def charsContain : List Char → List Char → Bool
  | _, [] => true
  | [], _ :: _ => false
  | h :: t, n => charsStart (h :: t) n || charsContain t n

/-- Textual rendering of an absolute path, as produced by
`Path::to_string_lossy`: `/` for the root, otherwise `/c1/c2/...`. -/
def pathText (p : List String) : List Char :=
  match p with
  | [] => ['/']
  | _ :: _ => p.flatMap (fun c => '/' :: c.toList)

/-- Embedding of `Path::parent`: `none` at the root, otherwise drop the
last component. -/
def pathParent (p : List String) : Option (List String) :=
  match p with
  | [] => none
  | _ :: _ => some p.dropLast

/-- The upward walk of `get_base_env_dir_from_exec_path` (main.rs:158-170),
on the reversed component list: repeatedly take the parent; if the parent's
own name (its head, in reversed order) is `.wine`, stop and return that
parent (still reversed). -/
def findWineRev : List String → Option (List String)
  | [] => none
  | _ :: rest =>
    if rest.head? = some ".wine" then some rest else findWineRev rest

/-- The upward walk on paths in component order: the nearest proper
ancestor directory whose own name is `.wine` (main.rs:158-170). -/
def findWineAncestor (p : List String) : Option (List String) :=
  (findWineRev p.reverse).map List.reverse

/-- Embedding of `get_base_env_dir_from_exec_path` (main.rs:152-182).
`fs` is the set of existing paths, used for the `conf.toml` existence
check.  Walk up to the nearest `.wine`-named ancestor; accept its parent
as the base environment directory when the `.wine` directory's own text
contains the data directory's text and the parent holds `conf.toml`. -/
def get_base_env_dir_from_exec_path (fs : List (List String))
    (exec_path data_dir : List String) : Option (List String) :=
  match findWineAncestor exec_path with
  | some wineDir =>
    if charsContain (pathText wineDir) (pathText data_dir) then
      match pathParent wineDir with
      | some base_env_dir =>
        if base_env_dir ++ ["conf.toml"] ∈ fs then some base_env_dir else none
      | none => none
    else none
  | none => none

/-- Embedding of the `PathMap` struct (main.rs:23-27): the persisted
identity table, a map from executable path to id, kept as an association
list. -/
structure PathMap where
  path_map : List (List String × String)
deriving DecidableEq

/-- Lookup in the identity table (`path_map.path_map.get(exec_path)`). -/
def pmLookup : List (List String × String) → List String → Option String
  | [], _ => none
  | (k, v) :: rest, p => if k = p then some v else pmLookup rest p

/-- Result of `get_env_dir`: the environment directory handed back, the
identity table as persisted after the call, and whether the table file
was rewritten. -/
structure EnvResolution where
  env_dir : List String
  new_map : PathMap
  wrote : Bool
deriving DecidableEq

/-- Embedding of `get_env_dir` (main.rs:122-150).  `m` is the table as
loaded from `path_map.toml`; `fresh` stands for the `nanoid!()` value
drawn when the path is not yet a key.  On a hit, the stored id is
returned and nothing is written; on a miss, the fresh id is inserted
under the path exactly as given and the whole table is rewritten before
the directory is returned. -/
def get_env_dir (fresh : String) (m : PathMap)
    (exec_path data_dir : List String) : EnvResolution :=
  match pmLookup m.path_map exec_path with
  | some id => ⟨data_dir ++ [id], m, false⟩
  | none => ⟨data_dir ++ [fresh], ⟨(exec_path, fresh) :: m.path_map⟩, true⟩

/-- The environment-directory dispatch of `run` (main.rs:53-58): the
nested-environment detector is consulted first; only when it reports
"not nested" does resolution fall back to the identity map.  The Bool
records whether the detector supplied the directory. -/
def resolveEnvDir (fs : List (List String)) (fresh : String) (m : PathMap)
    (exec_path data_dir : List String) : List String × Bool :=
  match get_base_env_dir_from_exec_path fs exec_path data_dir with
  | some p => (p, true)
  | none => ((get_env_dir fresh m exec_path data_dir).env_dir, false)

/-- Embedding of the `ExecEnv` struct (main.rs:29-33): the per-environment
state record, whose `executed_tricks` set carries `serde(default)`.  The
set is kept as a list with `∈` as membership. -/
structure ExecEnv where
  executed_tricks : List String
deriving DecidableEq

/-- The state the trick loop (main.rs:80-94) threads: `mem` is the
in-memory `exec_conf.executed_tricks`; `disk` is the content of the
persisted `conf.toml` state record. -/
structure TrickState where
  mem : List String
  disk : List String
deriving DecidableEq

/-- Outcome of the trick loop: clean completion, or the `bail!` naming
the trick whose winetricks run did not succeed (main.rs:86). -/
inductive TrickResult where
  | ok : TrickResult
  | failed (trick : String) : TrickResult
deriving DecidableEq

/-- Embedding of the trick loop of `run` (main.rs:80-94) on the flattened
trick-name sequence.  `r` is the external winetricks runner, `r t = true`
meaning its exit status was success.  For each name: if already in the
in-memory set, skip; otherwise insert it into the in-memory set, invoke
the runner, bail on failure (leaving the disk record untouched), and on
success rewrite the whole state record to disk before the next name.
Returns the final state, the list of runner invocations in order, and
the outcome. -/
def runTricks (r : String → Bool) :
    List String → TrickState → TrickState × List String × TrickResult
  | [], s => (s, [], .ok)
  | t :: ts, s =>
    if t ∈ s.mem then runTricks r ts s
    else
      if r t then
        let out := runTricks r ts ⟨t :: s.mem, t :: s.mem⟩
        (out.1, t :: out.2.1, out.2.2)
      else
        (⟨t :: s.mem, s.disk⟩, [t], .failed t)

/-- Rust's `str::split(",")` on a character list, with the accumulator of
the current piece kept reversed: every comma ends a piece, and the final
piece (possibly empty) is always emitted. -/
def splitCommaAux : List Char → List Char → List String
  | [], acc => [String.mk acc.reverse]
  | c :: cs, acc =>
    if c = ',' then String.mk acc.reverse :: splitCommaAux cs []
    else splitCommaAux cs (c :: acc)

/-- Embedding of `trick.split(",")` (main.rs:81). -/
def splitComma (s : String) : List String := splitCommaAux s.toList []

/-- Flattening of `args.with_tricks` (main.rs:80-81): each `--with-tricks`
value is split on commas and the groups are concatenated in order. -/
def flattenTricks (with_tricks : List String) : List String :=
  with_tricks.flatMap splitComma

/-- Loading the state record into the trick loop (main.rs:63-73): the
in-memory set starts equal to the persisted one. -/
def initTrickState (e : ExecEnv) : TrickState :=
  ⟨e.executed_tricks, e.executed_tricks⟩

/-- A structured-text (TOML) file for a struct with a single optional
field of payload `α`: the file may be unparseable, or a well-formed
document in which the field is present or absent.  A zero-byte file —
what `File::create_new` leaves behind before anything is written — is a
well-formed document with no keys, i.e. `wellFormed none`. -/
inductive TomlFile (α : Type) where
  | malformed
  | wellFormed (field : Option α)
deriving DecidableEq

/-- The zero-byte file produced by first-run creation, as a TOML
document: well-formed, no keys present. -/
def emptyTomlFile {α : Type} : TomlFile α := .wellFormed none

/-- serde deserialization of a struct whose single field carries
`serde(default)`: a malformed document is a parse error; a missing field
falls back to the default; a present field is taken as given. -/
def parseFieldWithDefault {α β : Type} (dflt : β) (f : α → β) :
    TomlFile α → Except String β
  | .malformed => .error "toml parse error"
  | .wellFormed none => .ok dflt
  | .wellFormed (some a) => .ok (f a)

/-- Embedding of `toml::from_slice::<ExecEnv>` (main.rs:73): `executed_tricks` has
`serde(default)`, so a document without the key yields the empty set. -/
def parseExecEnv (t : TomlFile (List String)) : Except String ExecEnv :=
  parseFieldWithDefault ⟨[]⟩ ExecEnv.mk t

/-- Embedding of `toml::from_slice::<PathMap>` (main.rs:135): `path_map` has
`serde(default)`, so a document without the key yields the empty map. -/
def parsePathMap (t : TomlFile (List (List String × String))) :
    Except String PathMap :=
  parseFieldWithDefault ⟨[]⟩ PathMap.mk t

/-- The application config file `config.toml` as `prepare` sees it
(main.rs:183-212): absent (first run — created empty by
`File::create_new`, and an empty document deserializes to
`Config { data_dir: None }` since the field is an `Option`), present but
unparseable, or parsed with its optional `data_dir` field. -/
inductive ConfFile where
  | absent
  | invalid
  | valid (data_dir : Option (List String))
deriving DecidableEq

/-- Successful result of `prepare`: the data directory returned to `run`,
and the content of `config.toml` after the call. -/
structure PrepareOk where
  data_dir : List String
  conf_file : ConfFile
deriving DecidableEq

/-- Embedding of `prepare` (main.rs:183-212).  `platformDirs` is
`ProjectDirs::from("", "", APP_NAME)`: `none` when the platform offers no
application-data location, otherwise the pair
(`data_dir()`, `data_local_dir()`).  With no platform location the call
fails; an unparseable config file fails; a config without a stored
`data_dir` (first run, or an empty file) persists `data_local_dir()` as
the default and returns it; a stored path is returned verbatim with the
file left unchanged. -/
def prepare (platformDirs : Option (List String × List String))
    (conf : ConfFile) : Except String PrepareOk :=
  match platformDirs with
  | none => .error "Can not create project dir."
  | some (_pDataDir, pDataLocalDir) =>
    match conf with
    | .invalid => .error "toml parse error"
    | .absent => .ok ⟨pDataLocalDir, .valid (some pDataLocalDir)⟩
    | .valid none => .ok ⟨pDataLocalDir, .valid (some pDataLocalDir)⟩
    | .valid (some d) => .ok ⟨d, .valid (some d)⟩

/-! ## Supporting lemmas -/

theorem runTricks_nil (r : String → Bool) (s : TrickState) :
    runTricks r [] s = (s, [], .ok) := rfl

theorem runTricks_skip (r : String → Bool) (t : String) (ts : List String)
    (s : TrickState) (h : t ∈ s.mem) :
    runTricks r (t :: ts) s = runTricks r ts s := by
  simp [runTricks, h]

theorem runTricks_success_step (r : String → Bool) (t : String)
    (ts : List String) (s : TrickState) (h : t ∉ s.mem) (hr : r t = true) :
    runTricks r (t :: ts) s =
      ((runTricks r ts ⟨t :: s.mem, t :: s.mem⟩).1,
       t :: (runTricks r ts ⟨t :: s.mem, t :: s.mem⟩).2.1,
       (runTricks r ts ⟨t :: s.mem, t :: s.mem⟩).2.2) := by
  simp [runTricks, h, hr]

theorem runTricks_fail_step (r : String → Bool) (t : String)
    (ts : List String) (s : TrickState) (h : t ∉ s.mem) (hr : r t = false) :
    runTricks r (t :: ts) s = (⟨t :: s.mem, s.disk⟩, [t], .failed t) := by
  simp [runTricks, h, hr]

theorem runTricks_mem_mono (r : String → Bool) (ts : List String) :
    ∀ (s : TrickState) (u : String),
      u ∈ s.mem → u ∈ (runTricks r ts s).1.mem := by
  induction ts with
  | nil => intro s u h; simpa [runTricks] using h
  | cons t ts ih =>
    intro s u h
    by_cases hm : t ∈ s.mem
    · rw [runTricks_skip r t ts s hm]; exact ih s u h
    · cases hr : r t with
      | false =>
        rw [runTricks_fail_step r t ts s hm hr]
        exact List.mem_cons_of_mem _ h
      | true =>
        rw [runTricks_success_step r t ts s hm hr]
        exact ih ⟨t :: s.mem, t :: s.mem⟩ u (List.mem_cons_of_mem _ h)

theorem runTricks_disk_mono (r : String → Bool) (ts : List String) :
    ∀ (s : TrickState), (∀ v, v ∈ s.disk → v ∈ s.mem) →
      ∀ u, u ∈ s.disk → u ∈ (runTricks r ts s).1.disk := by
  induction ts with
  | nil => intro s _ u h; simpa [runTricks] using h
  | cons t ts ih =>
    intro s hsub u h
    by_cases hm : t ∈ s.mem
    · rw [runTricks_skip r t ts s hm]; exact ih s hsub u h
    · cases hr : r t with
      | false => rw [runTricks_fail_step r t ts s hm hr]; exact h
      | true =>
        rw [runTricks_success_step r t ts s hm hr]
        exact ih ⟨t :: s.mem, t :: s.mem⟩ (fun v hv => hv) u
          (List.mem_cons_of_mem _ (hsub u h))

theorem runTricks_disk_iff (r : String → Bool) (ts : List String) :
    ∀ (s : TrickState), s.mem = s.disk →
      ∀ u, u ∈ (runTricks r ts s).1.disk ↔
        u ∈ s.disk ∨ (u ∈ (runTricks r ts s).2.1 ∧ r u = true) := by
  induction ts with
  | nil => intro s _ u; simp [runTricks]
  | cons t ts ih =>
    intro s hmd u
    by_cases hm : t ∈ s.mem
    · rw [runTricks_skip r t ts s hm]; exact ih s hmd u
    · cases hr : r t with
      | false =>
        rw [runTricks_fail_step r t ts s hm hr]
        constructor
        · exact Or.inl
        · rintro (h | ⟨h1, h2⟩)
          · exact h
          · rcases List.mem_singleton.mp h1 with rfl
            rw [hr] at h2; cases h2
      | true =>
        rw [runTricks_success_step r t ts s hm hr]
        rw [ih ⟨t :: s.mem, t :: s.mem⟩ rfl u]
        constructor
        · rintro (h | ⟨h1, h2⟩)
          · rcases List.mem_cons.mp h with rfl | h
            · exact Or.inr ⟨List.mem_cons_self _ _, hr⟩
            · exact Or.inl (hmd ▸ h)
          · exact Or.inr ⟨List.mem_cons_of_mem _ h1, h2⟩
        · rintro (h | ⟨h1, h2⟩)
          · exact Or.inl (List.mem_cons_of_mem _ (hmd ▸ h))
          · rcases List.mem_cons.mp h1 with rfl | h
            · exact Or.inl (List.mem_cons_self _ _)
            · exact Or.inr ⟨h, h2⟩

theorem runTricks_trace_fresh (r : String → Bool) (ts : List String) :
    ∀ (s : TrickState) (u : String),
      u ∈ (runTricks r ts s).2.1 → u ∉ s.mem := by
  induction ts with
  | nil => intro s u h; simp [runTricks] at h
  | cons t ts ih =>
    intro s u h
    by_cases hm : t ∈ s.mem
    · rw [runTricks_skip r t ts s hm] at h; exact ih s u h
    · cases hr : r t with
      | false =>
        rw [runTricks_fail_step r t ts s hm hr] at h
        rcases List.mem_singleton.mp h with rfl; exact hm
      | true =>
        rw [runTricks_success_step r t ts s hm hr] at h
        rcases List.mem_cons.mp h with rfl | h
        · exact hm
        · intro hu
          exact ih ⟨t :: s.mem, t :: s.mem⟩ u h (List.mem_cons_of_mem _ hu)

theorem runTricks_trace_nodup (r : String → Bool) (ts : List String) :
    ∀ (s : TrickState), ((runTricks r ts s).2.1).Nodup := by
  induction ts with
  | nil => intro s; simp [runTricks]
  | cons t ts ih =>
    intro s
    by_cases hm : t ∈ s.mem
    · rw [runTricks_skip r t ts s hm]; exact ih s
    · cases hr : r t with
      | false => rw [runTricks_fail_step r t ts s hm hr]; simp
      | true =>
        rw [runTricks_success_step r t ts s hm hr]
        refine List.nodup_cons.mpr ⟨?_, ih ⟨t :: s.mem, t :: s.mem⟩⟩
        intro hin
        exact runTricks_trace_fresh r ts ⟨t :: s.mem, t :: s.mem⟩ t hin
          (List.mem_cons_self _ _)

theorem charsStart_append (l u : List Char) : charsStart (l ++ u) l = true := by
  induction l with
  | nil => cases u <;> rfl
  | cons a l ih => simp [charsStart, ih]

theorem charsContain_of_start (hay needle : List Char)
    (h : charsStart hay needle = true) : charsContain hay needle = true := by
  cases needle with
  | nil => cases hay <;> rfl
  | cons n ns =>
    cases hay with
    | nil => simp [charsStart] at h
    | cons a t => simp [charsContain, h]

theorem pathText_append (d xs : List String) (hxs : xs ≠ []) :
    ∃ u, pathText (d ++ xs) = pathText d ++ u := by
  cases d with
  | nil =>
    cases xs with
    | nil => cases hxs rfl
    | cons x xs' =>
      exact ⟨x.toList ++ xs'.flatMap (fun c => '/' :: c.toList),
        by simp [pathText]⟩
  | cons a d' =>
    cases xs with
    | nil => cases hxs rfl
    | cons x xs' =>
      refine ⟨(x :: xs').flatMap (fun c => '/' :: c.toList), ?_⟩
      show ((a :: d') ++ (x :: xs')).flatMap _ = (a :: d').flatMap _ ++ _
      rw [List.flatMap_append]

theorem charsContain_pathText_append (d xs : List String) (hxs : xs ≠ []) :
    charsContain (pathText (d ++ xs)) (pathText d) = true := by
  obtain ⟨u, hu⟩ := pathText_append d xs hxs
  rw [hu]
  exact charsContain_of_start _ _ (charsStart_append _ _)

theorem findWineRev_append (D' : List String) :
    ∀ (l : List String), l ≠ [] → ".wine" ∉ l →
      findWineRev (l ++ ".wine" :: D') = some (".wine" :: D') := by
  intro l
  induction l with
  | nil => intro h _; cases h rfl
  | cons a l ih =>
    intro _ hnm
    cases l with
    | nil => simp [findWineRev]
    | cons b l' =>
      have hb : b ≠ ".wine" := by
        intro hb; exact hnm (by simp [hb])
      have : findWineRev ((a :: b :: l') ++ ".wine" :: D') =
          findWineRev ((b :: l') ++ ".wine" :: D') := by
        simp [findWineRev, hb]
      rw [this]
      exact ih (by simp) (fun hm => hnm (List.mem_cons_of_mem _ hm))

theorem findWineAncestor_under (D rest : List String) (h1 : rest ≠ [])
    (h2 : ".wine" ∉ rest) :
    findWineAncestor (D ++ ".wine" :: rest) = some (D ++ [".wine"]) := by
  unfold findWineAncestor
  have hrev : (D ++ ".wine" :: rest).reverse =
      rest.reverse ++ ".wine" :: D.reverse := by
    simp [List.reverse_append]
  rw [hrev, findWineRev_append D.reverse rest.reverse
    (by simpa using h1) (by simpa using h2)]
  simp

theorem findWineRev_head (l : List String) :
    ∀ w, findWineRev l = some w → w.head? = some ".wine" := by
  induction l with
  | nil => intro w h; cases h
  | cons a rest ih =>
    intro w h
    by_cases hh : rest.head? = some ".wine"
    · rw [show findWineRev (a :: rest) = some rest by simp [findWineRev, hh]]
        at h
      cases h; exact hh
    · rw [show findWineRev (a :: rest) = findWineRev rest by
        simp [findWineRev, hh]] at h
      exact ih w h

theorem findWineAncestor_shape (p w : List String)
    (h : findWineAncestor p = some w) : ∃ l, w = l ++ [".wine"] := by
  unfold findWineAncestor at h
  cases hf : findWineRev p.reverse with
  | none => rw [hf] at h; cases h
  | some rev =>
    rw [hf] at h
    have hh := findWineRev_head p.reverse rev hf
    cases rev with
    | nil => cases hh
    | cons x xs =>
      have hx : x = ".wine" := by simpa using hh
      have hw : w = (x :: xs).reverse := by simpa using h.symm
      exact ⟨xs.reverse, by rw [hw, hx]; simp⟩

theorem pathParent_concat (l : List String) (a : String) :
    pathParent (l ++ [a]) = some l := by
  cases l with
  | nil => rfl
  | cons b l' =>
    show some ((b :: (l' ++ [a])).dropLast) = some (b :: l')
    rw [show b :: (l' ++ [a]) = (b :: l') ++ [a] from rfl, List.dropLast_concat]

/-! ## Claims -/

/-- C9: a zero-byte per-environment state record file or identity table
file — the content first-run creation leaves behind, a well-formed TOML
document with no keys — parses successfully into an empty executed-tricks
set, resp. an empty path map, thanks to the `serde(default)` on both
fields; and loading that empty record starts the trick loop with empty
in-memory and persisted sets. -/
theorem emptyFile_parses_to_defaults :
    parseExecEnv emptyTomlFile = .ok ⟨[]⟩ ∧
    parsePathMap emptyTomlFile = .ok ⟨[]⟩ ∧
    initTrickState ⟨[]⟩ = ⟨[], []⟩ :=
  ⟨rfl, rfl, rfl⟩

/-- C10: when the executable path is already a key of the loaded identity
table, `get_env_dir` returns the stored id's directory, leaves the table
unchanged and performs no write. -/
theorem get_env_dir_hit (fresh : String) (m : PathMap) (p d : List String)
    (v : String) (h : pmLookup m.path_map p = some v) :
    get_env_dir fresh m p d = ⟨d ++ [v], m, false⟩ := by
  simp [get_env_dir, h]

theorem get_env_dir_hit_witness :
    get_env_dir "FRESH" ⟨[(["apps", "game.exe"], "v0")]⟩
        ["apps", "game.exe"] ["data"] =
      ⟨["data", "v0"], ⟨[(["apps", "game.exe"], "v0")]⟩, false⟩ :=
  get_env_dir_hit "FRESH" ⟨[(["apps", "game.exe"], "v0")]⟩
    ["apps", "game.exe"] ["data"] "v0" (by decide)

/-- C6: when the executable path is not yet a key of the identity table,
`get_env_dir` inserts the fresh id under the path exactly as given,
reports the whole table as rewritten (`wrote = true`) before the id's
directory is handed back, and afterwards the path looks up to the fresh
id. -/
theorem get_env_dir_miss (fresh : String) (m : PathMap) (p d : List String)
    (h : pmLookup m.path_map p = none) :
    get_env_dir fresh m p d = ⟨d ++ [fresh], ⟨(p, fresh) :: m.path_map⟩, true⟩ ∧
    pmLookup (get_env_dir fresh m p d).new_map.path_map p = some fresh := by
  simp [get_env_dir, h, pmLookup]

theorem get_env_dir_miss_witness :
    get_env_dir "F" ⟨[]⟩ ["apps", "game.exe"] ["data"] =
        ⟨["data", "F"], ⟨[(["apps", "game.exe"], "F")]⟩, true⟩ ∧
    pmLookup (get_env_dir "F" ⟨[]⟩ ["apps", "game.exe"] ["data"]).new_map.path_map
        ["apps", "game.exe"] = some "F" :=
  get_env_dir_miss "F" ⟨[]⟩ ["apps", "game.exe"] ["data"] (by decide)

/-- C4: resolving the same executable path twice in sequence — the second
call loading the table the first call left persisted, i.e. across a
process restart — yields the same environment directory, with the second
call writing nothing; the table is append-only: every existing binding
survives the call unchanged, and, when the fresh id does not collide
with a stored one, no id ends up shared by two different paths. -/
theorem get_env_dir_stable (f1 f2 : String) (m : PathMap) (p d : List String) :
    (get_env_dir f2 (get_env_dir f1 m p d).new_map p d).env_dir =
        (get_env_dir f1 m p d).env_dir ∧
    (get_env_dir f2 (get_env_dir f1 m p d).new_map p d).new_map =
        (get_env_dir f1 m p d).new_map ∧
    (get_env_dir f2 (get_env_dir f1 m p d).new_map p d).wrote = false ∧
    (∀ q v, pmLookup m.path_map q = some v →
       pmLookup (get_env_dir f1 m p d).new_map.path_map q = some v) ∧
    ((∀ q1 q2 v, pmLookup m.path_map q1 = some v →
        pmLookup m.path_map q2 = some v → q1 = q2) →
     (∀ q v, pmLookup m.path_map q = some v → v ≠ f1) →
     ∀ q1 q2 v, pmLookup (get_env_dir f1 m p d).new_map.path_map q1 = some v →
       pmLookup (get_env_dir f1 m p d).new_map.path_map q2 = some v → q1 = q2) := by
  cases h : pmLookup m.path_map p with
  | some v =>
    refine ⟨?_, ?_, ?_, ?_, ?_⟩ <;>
      simp [get_env_dir, h]
    · intro hinj _ q1 q2 v' h1 h2; exact hinj q1 q2 v' h1 h2
  | none =>
    have hlook : ∀ q v, pmLookup ((p, f1) :: m.path_map) q = some v →
        (q = p ∧ v = f1) ∨ (q ≠ p ∧ pmLookup m.path_map q = some v) := by
      intro q v hq
      by_cases hqp : p = q
      · left
        subst hqp
        simp [pmLookup] at hq
        exact ⟨rfl, hq.symm⟩
      · right
        refine ⟨fun hh => hqp hh.symm, ?_⟩
        simpa [pmLookup, hqp] using hq
    refine ⟨?_, ?_, ?_, ?_, ?_⟩
    · simp [get_env_dir, h, pmLookup]
    · simp [get_env_dir, h, pmLookup]
    · simp [get_env_dir, h, pmLookup]
    · intro q v hq
      have hqp : ¬p = q := by
        intro hh; rw [hh] at h; rw [h] at hq; cases hq
      simp [get_env_dir, h, pmLookup, hqp]
      exact hq
    · intro hinj hfresh q1 q2 v hq1 hq2
      simp only [get_env_dir, h] at hq1 hq2
      rcases hlook q1 v hq1 with ⟨hq1p, hv1⟩ | ⟨hne1, hm1⟩ <;>
        rcases hlook q2 v hq2 with ⟨hq2p, hv2⟩ | ⟨hne2, hm2⟩
      · rw [hq1p, hq2p]
      · exact ((hfresh q2 v hm2) hv1).elim
      · exact ((hfresh q1 v hm1) hv2).elim
      · exact hinj q1 q2 v hm1 hm2

theorem get_env_dir_stable_witness :
    (get_env_dir "id2" (get_env_dir "id1" ⟨[]⟩ ["apps", "game.exe"]
        ["data"]).new_map ["apps", "game.exe"] ["data"]).env_dir =
      (get_env_dir "id1" ⟨[]⟩ ["apps", "game.exe"] ["data"]).env_dir ∧
    (get_env_dir "id2" (get_env_dir "id1" ⟨[]⟩ ["apps", "game.exe"]
        ["data"]).new_map ["apps", "game.exe"] ["data"]).wrote = false ∧
    (get_env_dir "id1" ⟨[]⟩ ["apps", "game.exe"] ["data"]).env_dir =
      ["data", "id1"] :=
  ⟨(get_env_dir_stable "id1" "id2" ⟨[]⟩ ["apps", "game.exe"] ["data"]).1,
   (get_env_dir_stable "id1" "id2" ⟨[]⟩ ["apps", "game.exe"] ["data"]).2.2.1,
   by decide⟩

/-- C8: the config store: on first run (config file absent) `prepare`
creates the file, persists the platform's application-data location as
the default data directory and returns it; on later runs it returns the
stored path verbatim with the file unchanged; and it fails exactly when
the platform offers no application-data location or the config file does
not parse. -/
theorem prepare_contract (plat : Option (List String × List String))
    (conf : ConfFile) :
    (∀ dp dlp, plat = some (dp, dlp) → conf = .absent →
       prepare plat conf = .ok ⟨dlp, .valid (some dlp)⟩) ∧
    (∀ dp dlp dd, plat = some (dp, dlp) → conf = .valid (some dd) →
       prepare plat conf = .ok ⟨dd, .valid (some dd)⟩) ∧
    ((∃ e, prepare plat conf = .error e) ↔ plat = none ∨ conf = .invalid) := by
  refine ⟨?_, ?_, ?_⟩
  · rintro dp dlp rfl rfl; rfl
  · rintro dp dlp dd rfl rfl; rfl
  · cases plat with
    | none => simp [prepare]
    | some pr =>
      cases conf with
      | absent => simp [prepare]
      | invalid => simp [prepare]
      | valid o => cases o <;> simp [prepare]

theorem prepare_contract_witness :
    prepare (some (["home", "cfg"], ["home", "data"])) .absent =
      .ok ⟨["home", "data"], .valid (some ["home", "data"])⟩ :=
  (prepare_contract (some (["home", "cfg"], ["home", "data"])) .absent).1
    ["home", "cfg"] ["home", "data"] rfl rfl

/-- C1: starting from a loaded state (in-memory set equal to the
persisted one), over the flattened requested sequence: the persisted set
only grows; a name is in the persisted set afterwards iff it was there
before or its runner was invoked in this call and reported success; and
whenever a fresh name's runner succeeds, the loop continues on the state
in which the name has been added to the executed set and that whole set
has been rewritten to disk, before the next name is processed. -/
theorem applyAll_persists_each_success (r : String → Bool)
    (with_tricks : List String) (s : TrickState) (h : s.mem = s.disk) :
    (∀ u, u ∈ s.disk → u ∈ (runTricks r (flattenTricks with_tricks) s).1.disk) ∧
    (∀ u, u ∈ (runTricks r (flattenTricks with_tricks) s).1.disk ↔
       u ∈ s.disk ∨
         (u ∈ (runTricks r (flattenTricks with_tricks) s).2.1 ∧ r u = true)) ∧
    (∀ (t : String) (ts : List String) (s' : TrickState),
       t ∉ s'.mem → r t = true →
       runTricks r (t :: ts) s' =
         ((runTricks r ts ⟨t :: s'.mem, t :: s'.mem⟩).1,
          t :: (runTricks r ts ⟨t :: s'.mem, t :: s'.mem⟩).2.1,
          (runTricks r ts ⟨t :: s'.mem, t :: s'.mem⟩).2.2)) := by
  refine ⟨?_, ?_, ?_⟩
  · intro u hu
    exact runTricks_disk_mono r (flattenTricks with_tricks) s
      (fun v hv => h ▸ hv) u hu
  · exact runTricks_disk_iff r (flattenTricks with_tricks) s h
  · intro t ts s' hm hr
    exact runTricks_success_step r t ts s' hm hr

theorem applyAll_persists_each_success_witness :
    (runTricks (fun _ => true) (flattenTricks ["corefonts"]) ⟨[], []⟩).2.1 =
        ["corefonts"] ∧
    "corefonts" ∈
      (runTricks (fun _ => true) (flattenTricks ["corefonts"]) ⟨[], []⟩).1.disk :=
  ⟨by decide,
   ((applyAll_persists_each_success (fun _ => true) ["corefonts"]
       ⟨[], []⟩ rfl).2.1 "corefonts").mpr (Or.inr ⟨by decide, rfl⟩)⟩

/-- C2: on a loaded state not yet containing A, B or C, with A's runner
succeeding and B's failing, the loop runs A then B, bails naming B
without ever invoking C, persists A (and nothing else new) while B and C
stay unpersisted; a subsequent invocation on the state reloaded from
that persisted record skips A and invokes B first. -/
theorem applyAll_aborts_after_failure (A B C : String) (r r2 : String → Bool)
    (s : TrickState) (hmd : s.mem = s.disk)
    (hA : A ∉ s.mem) (hB : B ∉ s.mem) (hC : C ∉ s.mem)
    (hAB : A ≠ B) (hAC : A ≠ C) (hBC : B ≠ C)
    (hrA : r A = true) (hrB : r B = false) :
    runTricks r [A, B, C] s =
      (⟨B :: A :: s.mem, A :: s.mem⟩, [A, B], .failed B) ∧
    A ∈ (runTricks r [A, B, C] s).1.disk ∧
    B ∉ (runTricks r [A, B, C] s).1.disk ∧
    C ∉ (runTricks r [A, B, C] s).1.disk ∧
    C ∉ (runTricks r [A, B, C] s).2.1 ∧
    runTricks r2 [A, B, C] (initTrickState ⟨A :: s.mem⟩) =
      runTricks r2 [B, C] (initTrickState ⟨A :: s.mem⟩) ∧
    (runTricks r2 [A, B, C] (initTrickState ⟨A :: s.mem⟩)).2.1.head? = some B := by
  have hB1 : B ∉ (⟨A :: s.mem, A :: s.mem⟩ : TrickState).mem := by
    intro hmem
    rcases List.mem_cons.mp hmem with hh | hh
    · exact hAB hh.symm
    · exact hB hh
  have key : runTricks r [A, B, C] s =
      (⟨B :: A :: s.mem, A :: s.mem⟩, [A, B], .failed B) := by
    rw [runTricks_success_step r A [B, C] s hA hrA,
      runTricks_fail_step r B [C] ⟨A :: s.mem, A :: s.mem⟩ hB1 hrB]
  have hdiskA : A :: s.mem = A :: s.disk := by rw [hmd]
  have hBdisk : B ∉ A :: s.mem := hB1
  have hCdisk : C ∉ A :: s.mem := by
    intro hmem
    rcases List.mem_cons.mp hmem with hh | hh
    · exact hAC hh.symm
    · exact hC hh
  have hskip : runTricks r2 [A, B, C] (initTrickState ⟨A :: s.mem⟩) =
      runTricks r2 [B, C] (initTrickState ⟨A :: s.mem⟩) :=
    runTricks_skip r2 A [B, C] (initTrickState ⟨A :: s.mem⟩)
      (List.mem_cons_self _ _)
  refine ⟨key, ?_, ?_, ?_, ?_, hskip, ?_⟩
  · rw [key]; exact List.mem_cons_self _ _
  · rw [key]; exact hBdisk
  · rw [key]; exact hCdisk
  · rw [key]
    intro hmem
    rcases List.mem_cons.mp hmem with hh | hh
    · exact hAC hh.symm
    · exact hBC (List.mem_singleton.mp hh).symm
  · rw [hskip]
    cases hr2 : r2 B with
    | false =>
      rw [runTricks_fail_step r2 B [C] (initTrickState ⟨A :: s.mem⟩) hB1 hr2]
      rfl
    | true =>
      rw [runTricks_success_step r2 B [C] (initTrickState ⟨A :: s.mem⟩) hB1 hr2]
      rfl

theorem applyAll_aborts_after_failure_witness :
    runTricks (fun t => t == "A") ["A", "B", "C"] ⟨[], []⟩ =
      (⟨["B", "A"], ["A"]⟩, ["A", "B"], .failed "B") ∧
    "C" ∉ (runTricks (fun t => t == "A") ["A", "B", "C"] ⟨[], []⟩).2.1 :=
  ⟨(applyAll_aborts_after_failure "A" "B" "C" (fun t => t == "A")
      (fun _ => true) ⟨[], []⟩ rfl (by decide) (by decide) (by decide)
      (by decide) (by decide) (by decide) (by decide) (by decide)).1,
   (applyAll_aborts_after_failure "A" "B" "C" (fun t => t == "A")
      (fun _ => true) ⟨[], []⟩ rfl (by decide) (by decide) (by decide)
      (by decide) (by decide) (by decide) (by decide) (by decide)).2.2.2.2.1⟩

/-- C7: over any flattened requested sequence, every trick name is
passed to the external runner at most once; a name already present in
the loaded executed set is never passed to the runner; and a name
already in the in-memory set is skipped as a pure no-op — the loop state
(including the persisted record), the invocation list and the outcome
are exactly those of the remaining names. -/
theorem applyAll_idempotent (r : String → Bool) (with_tricks : List String)
    (s : TrickState) :
    (∀ t, ((runTricks r (flattenTricks with_tricks) s).2.1).count t ≤ 1) ∧
    (∀ t, t ∈ s.mem → t ∉ (runTricks r (flattenTricks with_tricks) s).2.1) ∧
    (∀ (t : String) (ts : List String) (s' : TrickState), t ∈ s'.mem →
       runTricks r (t :: ts) s' = runTricks r ts s') := by
  refine ⟨?_, ?_, ?_⟩
  · intro t
    exact List.nodup_iff_count_le_one.mp
      (runTricks_trace_nodup r (flattenTricks with_tricks) s) t
  · intro t ht hmem
    exact runTricks_trace_fresh r (flattenTricks with_tricks) s t hmem ht
  · intro t ts s' hm
    exact runTricks_skip r t ts s' hm

theorem applyAll_idempotent_witness :
    (runTricks (fun _ => true) (flattenTricks ["vcrun6,vcrun6"]) ⟨[], []⟩).2.1 =
        ["vcrun6"] ∧
    ((runTricks (fun _ => true) (flattenTricks ["vcrun6,vcrun6"])
        ⟨[], []⟩).2.1).count "vcrun6" ≤ 1 :=
  ⟨by decide,
   (applyAll_idempotent (fun _ => true) ["vcrun6,vcrun6"] ⟨[], []⟩).1 "vcrun6"⟩

theorem get_base_env_dir_some (fs : List (List String))
    (exec_path data_dir env : List String)
    (hfa : findWineAncestor exec_path = some (env ++ [".wine"]))
    (hcon : charsContain (pathText (env ++ [".wine"]))
      (pathText data_dir) = true)
    (hconf : env ++ ["conf.toml"] ∈ fs) :
    get_base_env_dir_from_exec_path fs exec_path data_dir = some env := by
  simp [get_base_env_dir_from_exec_path, hfa, hcon, pathParent_concat, hconf]

/-- C5 (amended): a candidate is accepted iff the marker-named ancestor's
own full path (the candidate's path extended by the `.wine` component) —
not the candidate's path — textually contains the data directory's path,
and the candidate holds the state record `conf.toml`; when the walk finds
no marker ancestor or a check fails, detection reports not nested and
`run` falls back to the identity map. -/
theorem get_base_env_dir_checks (fs : List (List String))
    (exec_path data_dir : List String) :
    (∀ env, get_base_env_dir_from_exec_path fs exec_path data_dir = some env ↔
       (findWineAncestor exec_path = some (env ++ [".wine"]) ∧
        charsContain (pathText (env ++ [".wine"])) (pathText data_dir) = true ∧
        env ++ ["conf.toml"] ∈ fs)) ∧
    (∀ (fresh : String) (m : PathMap),
       get_base_env_dir_from_exec_path fs exec_path data_dir = none →
       resolveEnvDir fs fresh m exec_path data_dir =
         ((get_env_dir fresh m exec_path data_dir).env_dir, false)) := by
  constructor
  · intro env
    constructor
    · intro h
      cases hf : findWineAncestor exec_path with
      | none => simp [get_base_env_dir_from_exec_path, hf] at h
      | some w =>
        obtain ⟨l, rfl⟩ := findWineAncestor_shape exec_path w hf
        cases hcon : charsContain (pathText (l ++ [".wine"]))
            (pathText data_dir) with
        | false => simp [get_base_env_dir_from_exec_path, hf, hcon] at h
        | true =>
          by_cases he : l ++ ["conf.toml"] ∈ fs
          · have hle : l = env := by
              simpa [get_base_env_dir_from_exec_path, hf, hcon,
                pathParent_concat, he] using h
            subst hle
            exact ⟨rfl, hcon, he⟩
          · simp [get_base_env_dir_from_exec_path, hf, hcon,
              pathParent_concat, he] at h
    · rintro ⟨h1, h2, h3⟩
      simp [get_base_env_dir_from_exec_path, h1, h2, pathParent_concat, h3]
  · intro fresh m h
    simp [resolveEnvDir, h]

theorem get_base_env_dir_checks_witness :
    get_base_env_dir_from_exec_path [["data", "i9", "conf.toml"]]
        ["data", "i9", ".wine", "drive_c", "app.exe"] ["data"] =
      some ["data", "i9"] :=
  ((get_base_env_dir_checks [["data", "i9", "conf.toml"]]
      ["data", "i9", ".wine", "drive_c", "app.exe"] ["data"]).1
      ["data", "i9"]).mpr ⟨by decide, by decide, by decide⟩

/-- C5 as stated fails: with data directory `/sub/.wine`, executable
`/x/sub/.wine/app.exe` and an unrelated `conf.toml` at `/x/sub`, the
detector accepts the candidate `/x/sub` although the candidate's own
path does not contain the data directory's path as a substring — the
code checks the `.wine` ancestor's path, whose text `/x/sub/.wine` does
contain `/sub/.wine`. -/
theorem get_base_env_dir_candidate_text_cex :
    get_base_env_dir_from_exec_path [["x", "sub", "conf.toml"]]
        ["x", "sub", ".wine", "app.exe"] ["sub", ".wine"] = some ["x", "sub"] ∧
    charsContain (pathText ["x", "sub"]) (pathText ["sub", ".wine"]) = false := by
  decide

/-- C3 (amended): if environment E (directory `data/eid`, with its state
record `data/eid/conf.toml` on disk) was previously created, then
resolving any executable path inside E's isolated runtime prefix
`data/eid/.wine` whose intervening components contain no further `.wine`
ancestor yields E's directory through the nested-environment detector,
bypassing the identity map. -/
theorem resolveEnvDir_nested (fs : List (List String)) (fresh : String)
    (m : PathMap) (data : List String) (eid : String) (rest : List String)
    (h1 : rest ≠ []) (h2 : ".wine" ∉ rest)
    (h3 : data ++ [eid, "conf.toml"] ∈ fs) :
    get_base_env_dir_from_exec_path fs (data ++ [eid, ".wine"] ++ rest) data =
      some (data ++ [eid]) ∧
    resolveEnvDir fs fresh m (data ++ [eid, ".wine"] ++ rest) data =
      (data ++ [eid], true) := by
  have heq : data ++ [eid, ".wine"] ++ rest =
      (data ++ [eid]) ++ ".wine" :: rest := by simp
  have hfa : findWineAncestor ((data ++ [eid]) ++ ".wine" :: rest) =
      some ((data ++ [eid]) ++ [".wine"]) :=
    findWineAncestor_under (data ++ [eid]) rest h1 h2
  have hcon : charsContain (pathText ((data ++ [eid]) ++ [".wine"]))
      (pathText data) = true := by
    have hx : (data ++ [eid]) ++ [".wine"] = data ++ [eid, ".wine"] := by simp
    rw [hx]
    exact charsContain_pathText_append data [eid, ".wine"] (by simp)
  have hconf : (data ++ [eid]) ++ ["conf.toml"] ∈ fs := by
    have hx : (data ++ [eid]) ++ ["conf.toml"] = data ++ [eid, "conf.toml"] := by
      simp
    rw [hx]; exact h3
  have hmain : get_base_env_dir_from_exec_path fs
      ((data ++ [eid]) ++ ".wine" :: rest) data = some (data ++ [eid]) :=
    get_base_env_dir_some fs ((data ++ [eid]) ++ ".wine" :: rest) data
      (data ++ [eid]) hfa hcon hconf
  refine ⟨by rw [heq]; exact hmain, ?_⟩
  rw [heq]
  unfold resolveEnvDir
  rw [hmain]

theorem resolveEnvDir_nested_witness :
    resolveEnvDir [["data", "ID", "conf.toml"]] "NEW" ⟨[]⟩
        (["data"] ++ ["ID", ".wine"] ++ ["drive_c", "game.exe"]) ["data"] =
      (["data"] ++ ["ID"], true) :=
  (resolveEnvDir_nested [["data", "ID", "conf.toml"]] "NEW" ⟨[]⟩
    ["data"] "ID" ["drive_c", "game.exe"] (by decide) (by decide)
    (by decide)).2

/-- C3 as stated fails: the walk stops at the nearest `.wine` ancestor,
so for an executable inside E's prefix that itself has a deeper `.wine`
directory above it — here `/data/ID/.wine/a/.wine/app.exe` with E at
`/data/ID` — the candidate becomes `/data/ID/.wine/a`, its `conf.toml`
check fails, detection reports not nested, and resolution falls back to
the identity map, which mints a sibling environment instead of E. -/
theorem resolveEnvDir_nested_cex :
    get_base_env_dir_from_exec_path [["data", "ID", "conf.toml"]]
        (["data", "ID", ".wine"] ++ ["a", ".wine", "app.exe"]) ["data"] =
      none ∧
    resolveEnvDir [["data", "ID", "conf.toml"]] "NEW"
        ⟨[(["apps", "game.exe"], "ID")]⟩
        (["data", "ID", ".wine"] ++ ["a", ".wine", "app.exe"]) ["data"] =
      (["data", "NEW"], false) ∧
    (["data", "NEW"] : List String) ≠ ["data", "ID"] := by
  decide
